import Mathlib

/-!
# Verification of the imonitor per-device supervisor

Shallow embedding, in Lean 4, of the parts of the `imonitor` repository that
the verified properties talk about:

* `imonitor-lib/src/device/activity_coverage/mod.rs` — the `ActivityCoverage`
  interval set (`add_range`, `missing_ranges`, the RFC-3339 persistence of
  `TimeRange`);
* `imonitor-lib/src/services/crashes/client.rs` — the crash harvester's
  known-set state machine (`write_crashes`, `update_known_crashes`);
* `imonitor-lib/src/services/heartbeat/client.rs` — the heartbeat supervisor
  loop (`maintain_heartbeat`).

Time is modelled by `ℚ` (seconds since the Unix epoch).  The Rust code only
ever compares `SystemTime`s and takes `min`/`max` of them, so any linearly
ordered time domain embeds every program trace; a dense one is needed to
reason about half-open wall-clock intervals, and `ℚ` keeps everything
computable.
-/

namespace IMonitor

/-- A point in time (seconds since the Unix epoch), modelling `SystemTime`. -/
abbrev Time := ℚ

/-- `TimeRange(Range<SystemTime>)`: a half-open interval `[start, end)`,
represented as the pair (start, end). -/
abbrev TimeRange := Time × Time

/-! ## ActivityCoverage

`ActivityCoverage { covered: BTreeSet<TimeRange> }` with
`Ord for TimeRange` comparing starts only.  The `BTreeSet` is modelled by its
ascending-by-start list of elements.  `BTreeSet::insert` does not replace an
`Ord`-equal element; `BTreeSet::remove` removes the `Ord`-equal element. -/

/-- `BTreeSet<TimeRange>::insert`: ordered insertion keyed by the range start
(`Ord for TimeRange` compares `self.0.start` only); if an element with an
equal start is present the set is left unchanged. -/
def btreeInsert (r : TimeRange) : List TimeRange → List TimeRange
  | [] => [r]
  | x :: xs =>
    if r.1 < x.1 then r :: x :: xs
    else if r.1 = x.1 then x :: xs
    else x :: btreeInsert r xs

/-- `BTreeSet<TimeRange>::remove`: removes the element whose start equals the
given range's start (the `Ord` key), if any. -/
def btreeRemove (r : TimeRange) : List TimeRange → List TimeRange
  | [] => []
  | x :: xs => if x.1 = r.1 then xs else x :: btreeRemove r xs

/-- The scan loop of `ActivityCoverage::add_range`: walk the existing ranges
in ascending order carrying `new_start`/`new_end`; a range with
`new_end < existing.start || new_start > existing.end` is skipped, any other
range is merged (`new_start := min`, `new_end := max`) and queued for
removal.  Returns the final `new_start`, `new_end` and the `to_remove`
list in scan order. -/
def mergeScan (s e : Time) : List TimeRange → Time × Time × List TimeRange
  | [] => (s, e, [])
  | x :: xs =>
    if e < x.1 ∨ s > x.2 then mergeScan s e xs
    else
      ((mergeScan (min s x.1) (max e x.2) xs).1,
       (mergeScan (min s x.1) (max e x.2) xs).2.1,
       x :: (mergeScan (min s x.1) (max e x.2) xs).2.2)

/-- `ActivityCoverage::add_range`: scan for overlapping-or-touching ranges,
remove each collected range from the set, then insert the merged range. -/
def add_range (new_range : TimeRange) (covered : List TimeRange) : List TimeRange :=
  btreeInsert ((mergeScan new_range.1 new_range.2 covered).1,
               (mergeScan new_range.1 new_range.2 covered).2.1)
    ((mergeScan new_range.1 new_range.2 covered).2.2.foldl
      (fun acc r => btreeRemove r acc) covered)

/-- The cursor loop of `ActivityCoverage::missing_ranges`: for each range in
ascending order, if `r.start > cursor` emit `[cursor, r.start)`; then advance
the cursor to `max cursor r.end`.  Returns the emitted gaps and the final
cursor. -/
def gapsLoop (cursor : Time) : List TimeRange → List TimeRange × Time
  | [] => ([], cursor)
  | r :: rs =>
    ((if cursor < r.1 then [(cursor, r.1)] else []) ++ (gapsLoop (max cursor r.2) rs).1,
     (gapsLoop (max cursor r.2) rs).2)

/-- `ActivityCoverage::missing_ranges`: empty set yields `[]`; otherwise run
the cursor loop starting from the first range's start, and finally, if the
cursor is still below the last range's end, emit `[cursor, last.end)`. -/
def missing_ranges (covered : List TimeRange) : List TimeRange :=
  match covered with
  | [] => []
  | first :: rest =>
    if (gapsLoop first.1 (first :: rest)).2 <
        ((first :: rest).getLast (List.cons_ne_nil first rest)).2 then
      (gapsLoop first.1 (first :: rest)).1 ++
        [((gapsLoop first.1 (first :: rest)).2,
          ((first :: rest).getLast (List.cons_ne_nil first rest)).2)]
    else
      (gapsLoop first.1 (first :: rest)).1

/-- `ActivityCoverage::oldest_gap`. -/
def oldest_gap (covered : List TimeRange) : Option TimeRange :=
  (missing_ranges covered).head?

/-- A coverage set as built by the program: ranges in strictly ascending,
pairwise non-overlapping and non-touching order (consecutive ranges satisfy
`end < next.start`) and each range well-formed (`start ≤ end`). -/
def Normalized (c : List TimeRange) : Prop :=
  c.Pairwise (fun a b => a.2 < b.1) ∧ ∀ r ∈ c, r.1 ≤ r.2

-- quick sanity checks of the executable model
example : add_range (10, 20) [] = [(10, 20)] := by decide
example : add_range (19, 31) [(10, 20), (30, 40)] = [(10, 40)] := by decide
example : missing_ranges [(10, 40), (50, 60)] = [(40, 50)] := by decide

/-! ### `add_range` on a normalized set reduces to an ordered structural merge

On a `Normalized` list, the scan/remove/insert dance of `add_range` is
equivalent to `addMerge`, a single structural walk; all invariant and
semantic reasoning goes through `addMerge`. -/

/-- Structural form of the insertion: skip ranges entirely to the left,
stop in front of ranges entirely to the right, absorb everything that
overlaps or touches. -/
def addMerge (s e : Time) : List TimeRange → List TimeRange
  | [] => [(s, e)]
  | x :: xs =>
    if e < x.1 then (s, e) :: x :: xs
    else if s > x.2 then x :: addMerge s e xs
    else addMerge (min s x.1) (max e x.2) xs

theorem btreeInsert_cons_lt {r x : TimeRange} {xs : List TimeRange} (h : r.1 < x.1) :
    btreeInsert r (x :: xs) = r :: x :: xs := by
  simp [btreeInsert, h]

theorem btreeInsert_cons_gt {r x : TimeRange} {xs : List TimeRange} (h : x.1 < r.1) :
    btreeInsert r (x :: xs) = x :: btreeInsert r xs := by
  simp [btreeInsert, not_lt_of_gt h, ne_of_gt h]

theorem btreeRemove_cons_self {r x : TimeRange} {xs : List TimeRange} (h : x.1 = r.1) :
    btreeRemove r (x :: xs) = xs := by
  simp [btreeRemove, h]

theorem btreeRemove_cons_ne {r x : TimeRange} {xs : List TimeRange} (h : x.1 ≠ r.1) :
    btreeRemove r (x :: xs) = x :: btreeRemove r xs := by
  simp [btreeRemove, h]

theorem mergeScan_cons_skip {s e : Time} {x : TimeRange} {xs : List TimeRange}
    (h : e < x.1 ∨ s > x.2) : mergeScan s e (x :: xs) = mergeScan s e xs := by
  simp [mergeScan, h]

theorem mergeScan_cons_merge {s e : Time} {x : TimeRange} {xs : List TimeRange}
    (h : ¬(e < x.1 ∨ s > x.2)) :
    mergeScan s e (x :: xs) =
      ((mergeScan (min s x.1) (max e x.2) xs).1,
       (mergeScan (min s x.1) (max e x.2) xs).2.1,
       x :: (mergeScan (min s x.1) (max e x.2) xs).2.2) := by
  simp [mergeScan, h]

theorem mergeScan_skip_all (s e : Time) (l : List TimeRange)
    (h : ∀ r ∈ l, e < r.1 ∨ s > r.2) : mergeScan s e l = (s, e, []) := by
  induction l with
  | nil => rfl
  | cons x xs ih =>
    rw [mergeScan_cons_skip (h x (List.mem_cons_self x xs))]
    exact ih fun r hr => h r (List.mem_cons_of_mem x hr)

theorem mergeScan_rem_mem (s e : Time) (l : List TimeRange) :
    ∀ r ∈ (mergeScan s e l).2.2, r ∈ l := by
  induction l generalizing s e with
  | nil => intro r hr; simp [mergeScan] at hr
  | cons x xs ih =>
    intro r hr
    by_cases h : e < x.1 ∨ s > x.2
    · rw [mergeScan_cons_skip h] at hr
      exact List.mem_cons_of_mem x (ih s e r hr)
    · rw [mergeScan_cons_merge h] at hr
      rcases List.mem_cons.mp hr with h' | h'
      · exact h' ▸ List.mem_cons_self x xs
      · exact List.mem_cons_of_mem x (ih (min s x.1) (max e x.2) r h')

theorem mergeScan_fst_lb {t : Time} (s e : Time) (l : List TimeRange)
    (hts : t < s) (hl : ∀ r ∈ l, t < r.1) : t < (mergeScan s e l).1 := by
  induction l generalizing s e with
  | nil => exact hts
  | cons x xs ih =>
    by_cases h : e < x.1 ∨ s > x.2
    · rw [mergeScan_cons_skip h]
      exact ih s e hts fun r hr => hl r (List.mem_cons_of_mem x hr)
    · rw [mergeScan_cons_merge h]
      exact ih (min s x.1) (max e x.2)
        (lt_min hts (hl x (List.mem_cons_self x xs)))
        fun r hr => hl r (List.mem_cons_of_mem x hr)

theorem foldl_btreeRemove_cons {x : TimeRange} {l : List TimeRange}
    (rem : List TimeRange) (h : ∀ r ∈ rem, x.1 ≠ r.1) :
    rem.foldl (fun acc r => btreeRemove r acc) (x :: l) =
      x :: rem.foldl (fun acc r => btreeRemove r acc) l := by
  induction rem generalizing l with
  | nil => rfl
  | cons a rest ih =>
    rw [List.foldl_cons, List.foldl_cons,
      btreeRemove_cons_ne (h a (List.mem_cons_self a rest))]
    exact ih fun r hr => h r (List.mem_cons_of_mem a hr)

theorem add_range_eq_addMerge (s e : Time) (c : List TimeRange)
    (hc : Normalized c) (hse : s ≤ e) : add_range (s, e) c = addMerge s e c := by
  induction c generalizing s e with
  | nil => simp [add_range, mergeScan, btreeInsert, addMerge]
  | cons x xs ih =>
    obtain ⟨hp, hwf⟩ := hc
    rw [List.pairwise_cons] at hp
    obtain ⟨hx, hpxs⟩ := hp
    have hxwf : x.1 ≤ x.2 := hwf x (List.mem_cons_self x xs)
    have hnxs : Normalized xs := ⟨hpxs, fun r hr => hwf r (List.mem_cons_of_mem x hr)⟩
    by_cases h1 : e < x.1
    · -- every existing range is strictly to the right: nothing merges
      have hskip : ∀ r ∈ x :: xs, e < r.1 ∨ s > r.2 := by
        intro r hr
        rcases List.mem_cons.mp hr with h | h
        · exact Or.inl (h ▸ h1)
        · exact Or.inl (lt_trans (lt_of_lt_of_le h1 hxwf) (hx r h))
      rw [add_range, mergeScan_skip_all s e (x :: xs) hskip]
      rw [addMerge, if_pos h1]
      exact btreeInsert_cons_lt (lt_of_le_of_lt hse h1)
    · by_cases h2 : s > x.2
      · -- `x` is strictly to the left: it is skipped and kept
        have hxs_gt : ∀ r ∈ xs, x.2 < r.1 := hx
        have hscan : mergeScan s e (x :: xs) = mergeScan s e xs :=
          mergeScan_cons_skip (Or.inr h2)
        have hrem : ∀ r ∈ (mergeScan s e xs).2.2, x.1 ≠ r.1 := by
          intro r hr
          exact ne_of_lt (lt_of_le_of_lt hxwf (hxs_gt r (mergeScan_rem_mem s e xs r hr)))
        have hfst : x.2 < (mergeScan s e xs).1 := mergeScan_fst_lb s e xs h2 hxs_gt
        rw [add_range, hscan, foldl_btreeRemove_cons _ hrem,
          btreeInsert_cons_gt (lt_of_le_of_lt hxwf hfst)]
        rw [addMerge, if_neg h1, if_pos h2]
        rw [← ih s e hnxs hse, add_range]
      · -- `x` overlaps or touches: it is absorbed
        have h' : ¬(e < x.1 ∨ s > x.2) := by
          intro h; rcases h with h | h; exact h1 h; exact h2 h
        rw [add_range, mergeScan_cons_merge h', List.foldl_cons,
          btreeRemove_cons_self rfl]
        rw [addMerge, if_neg h1, if_neg h2]
        rw [← ih (min s x.1) (max e x.2) hnxs
          (le_trans (min_le_left s x.1) (le_trans hse (le_max_left e x.2))), add_range]

/-! ### Invariant preservation and point semantics -/

theorem pairwise_mono_mem {α : Type _} {R S : α → α → Prop} :
    ∀ {l : List α}, (∀ a ∈ l, ∀ b ∈ l, R a b → S a b) → l.Pairwise R → l.Pairwise S := by
  intro l
  induction l with
  | nil => exact fun _ _ => List.Pairwise.nil
  | cons x xs ih =>
    intro h hp
    rw [List.pairwise_cons] at hp ⊢
    refine ⟨fun b hb => h x (List.mem_cons_self x xs) b (List.mem_cons_of_mem x hb)
      (hp.1 b hb), ih ?_ hp.2⟩
    exact fun a ha b hb => h a (List.mem_cons_of_mem x ha) b (List.mem_cons_of_mem x hb)

theorem addMerge_lb {t : Time} (s e : Time) (l : List TimeRange) (hts : t < s)
    (hl : ∀ r ∈ l, t < r.1) : ∀ r ∈ addMerge s e l, t < r.1 := by
  induction l generalizing s e with
  | nil =>
    intro r hr
    simp only [addMerge, List.mem_singleton] at hr
    exact hr ▸ hts
  | cons x xs ih =>
    intro r hr
    rw [addMerge] at hr
    split at hr
    · rcases List.mem_cons.mp hr with h | h
      · exact h ▸ hts
      · exact hl r h
    · split at hr
      · rcases List.mem_cons.mp hr with h | h
        · exact h ▸ hl x (List.mem_cons_self x xs)
        · exact ih s e hts (fun q hq => hl q (List.mem_cons_of_mem x hq)) r h
      · exact ih (min s x.1) (max e x.2)
          (lt_min hts (hl x (List.mem_cons_self x xs)))
          (fun q hq => hl q (List.mem_cons_of_mem x hq)) r hr

theorem addMerge_normalized (s e : Time) (c : List TimeRange)
    (hc : Normalized c) (hse : s ≤ e) : Normalized (addMerge s e c) := by
  induction c generalizing s e with
  | nil =>
    refine ⟨List.pairwise_singleton _ _, ?_⟩
    intro r hr
    simp only [addMerge, List.mem_singleton] at hr
    exact hr ▸ hse
  | cons x xs ih =>
    obtain ⟨hp, hwf⟩ := hc
    rw [List.pairwise_cons] at hp
    obtain ⟨hx, hpxs⟩ := hp
    have hxwf : x.1 ≤ x.2 := hwf x (List.mem_cons_self x xs)
    have hnxs : Normalized xs := ⟨hpxs, fun r hr => hwf r (List.mem_cons_of_mem x hr)⟩
    rw [addMerge]
    split
    · -- prepend `[s, e)` in front
      rename_i h1
      constructor
      · rw [List.pairwise_cons]
        refine ⟨?_, List.pairwise_cons.mpr ⟨hx, hpxs⟩⟩
        intro r hr
        rcases List.mem_cons.mp hr with h | h
        · exact h ▸ h1
        · exact lt_trans (lt_of_lt_of_le h1 hxwf) (hx r h)
      · intro r hr
        rcases List.mem_cons.mp hr with h | h
        · exact h ▸ hse
        · exact hwf r h
    · split
      · -- keep `x`, recurse to the right of it
        rename_i h1 h2
        obtain ⟨ihp, ihwf⟩ := ih s e hnxs hse
        constructor
        · rw [List.pairwise_cons]
          exact ⟨addMerge_lb s e xs h2 hx, ihp⟩
        · intro r hr
          rcases List.mem_cons.mp hr with h | h
          · exact h ▸ hxwf
          · exact ihwf r h
      · -- absorb `x`
        exact ih (min s x.1) (max e x.2) hnxs
          (le_trans (min_le_left s x.1) (le_trans hse (le_max_left e x.2)))

theorem add_range_normalized (r : TimeRange) (c : List TimeRange)
    (hc : Normalized c) (hr : r.1 ≤ r.2) : Normalized (add_range r c) := by
  have h := add_range_eq_addMerge r.1 r.2 c hc hr
  rw [show (r.1, r.2) = r from rfl] at h
  rw [h]
  exact addMerge_normalized r.1 r.2 c hc hr

/-- A wall-clock instant `t` lies in the closure of the coverage: in the code
every stored range satisfies `start ≤ end`, and merging treats ranges that
merely touch as connected, so the closed hull `[start, end]` is the faithful
pointwise reading of a stored range for reasoning about merging. -/
def covers (c : List TimeRange) (t : Time) : Prop :=
  ∃ r ∈ c, r.1 ≤ t ∧ t ≤ r.2

theorem addMerge_covers (s e : Time) (c : List TimeRange) (hse : s ≤ e)
    (hwf : ∀ r ∈ c, r.1 ≤ r.2) (t : Time) :
    covers (addMerge s e c) t ↔ (s ≤ t ∧ t ≤ e) ∨ covers c t := by
  induction c generalizing s e with
  | nil => simp [addMerge, covers]
  | cons x xs ih =>
    have hxwf : x.1 ≤ x.2 := hwf x (List.mem_cons_self x xs)
    have hwf' : ∀ r ∈ xs, r.1 ≤ r.2 := fun r hr => hwf r (List.mem_cons_of_mem x hr)
    rw [addMerge]
    split
    · simp only [covers, List.mem_cons]
      constructor
      · rintro ⟨r, hr | hr, h⟩
        · subst hr
          exact Or.inl h
        · exact Or.inr ⟨r, hr, h⟩
      · rintro (h | ⟨r, hr, h⟩)
        · exact ⟨(s, e), Or.inl rfl, h⟩
        · exact ⟨r, Or.inr hr, h⟩
    · split
      · constructor
        · rintro ⟨r, hr, h⟩
          rcases List.mem_cons.mp hr with h' | h'
          · exact Or.inr ⟨r, h' ▸ List.mem_cons_self x xs, h⟩
          · rcases (ih s e hse hwf').mp ⟨r, h', h⟩ with h'' | ⟨q, hq, hq'⟩
            · exact Or.inl h''
            · exact Or.inr ⟨q, List.mem_cons_of_mem x hq, hq'⟩
        · rintro (h | ⟨r, hr, h⟩)
          · obtain ⟨q, hq, hq'⟩ := (ih s e hse hwf').mpr (Or.inl h)
            exact ⟨q, List.mem_cons_of_mem x hq, hq'⟩
          · rcases List.mem_cons.mp hr with h' | h'
            · exact ⟨r, h' ▸ List.mem_cons_self x _, h⟩
            · obtain ⟨q, hq, hq'⟩ := (ih s e hse hwf').mpr (Or.inr ⟨r, h', h⟩)
              exact ⟨q, List.mem_cons_of_mem x hq, hq'⟩
      · -- absorbing case: the hull of two overlapping closed intervals is
        -- exactly their union
        rename_i h1 h2
        push_neg at h1 h2
        rw [ih (min s x.1) (max e x.2)
          (le_trans (min_le_left s x.1) (le_trans hse (le_max_left e x.2))) hwf']
        have hun : (min s x.1 ≤ t ∧ t ≤ max e x.2) ↔
            ((s ≤ t ∧ t ≤ e) ∨ (x.1 ≤ t ∧ t ≤ x.2)) := by
          constructor
          · rintro ⟨hl, hr⟩
            rcases min_le_iff.mp hl with h | h
            · rcases le_max_iff.mp hr with h' | h'
              · exact Or.inl ⟨h, h'⟩
              · rcases le_total t e with h'' | h''
                · exact Or.inl ⟨h, h''⟩
                · exact Or.inr ⟨le_trans h1 h'', h'⟩
            · rcases le_max_iff.mp hr with h' | h'
              · rcases le_total s t with h'' | h''
                · exact Or.inl ⟨h'', h'⟩
                · exact Or.inr ⟨h, le_trans h'' h2⟩
              · exact Or.inr ⟨h, h'⟩
          · rintro (⟨hl, hr⟩ | ⟨hl, hr⟩)
            · exact ⟨le_trans (min_le_left s x.1) hl, le_trans hr (le_max_left e x.2)⟩
            · exact ⟨le_trans (min_le_right s x.1) hl, le_trans hr (le_max_right e x.2)⟩
        constructor
        · rintro (h | h)
          · rcases hun.mp h with h' | h'
            · exact Or.inl h'
            · exact Or.inr ⟨x, List.mem_cons_self x xs, h'⟩
          · obtain ⟨q, hq, hq'⟩ := h
            exact Or.inr ⟨q, List.mem_cons_of_mem x hq, hq'⟩
        · rintro (h | ⟨q, hq, hq'⟩)
          · exact Or.inl (hun.mpr (Or.inl h))
          · rcases List.mem_cons.mp hq with h' | h'
            · exact Or.inl (hun.mpr (Or.inr (h' ▸ hq')))
            · exact Or.inr ⟨q, h', hq'⟩

theorem add_range_covers (r : TimeRange) (c : List TimeRange) (hc : Normalized c)
    (hr : r.1 ≤ r.2) (t : Time) :
    covers (add_range r c) t ↔ (r.1 ≤ t ∧ t ≤ r.2) ∨ covers c t := by
  have h := add_range_eq_addMerge r.1 r.2 c hc hr
  rw [show (r.1, r.2) = r from rfl] at h
  rw [h]
  exact addMerge_covers r.1 r.2 c hr hc.2 t

/-! ### Extensionality: a normalized coverage set is determined by the
instants it covers.  This is where density of the time domain is used:
between the end of one stored range and the start of the next there is
always an uncovered instant. -/

theorem normalized_tail {x : TimeRange} {l : List TimeRange}
    (h : Normalized (x :: l)) : Normalized l :=
  ⟨(List.pairwise_cons.mp h.1).2, fun r hr => h.2 r (List.mem_cons_of_mem x hr)⟩

theorem normalized_start_lb {x : TimeRange} {l : List TimeRange}
    (h : Normalized (x :: l)) : ∀ r ∈ x :: l, x.1 ≤ r.1 := by
  intro r hr
  rcases List.mem_cons.mp hr with h' | h'
  · exact h' ▸ le_refl _
  · exact le_trans (h.2 x (List.mem_cons_self x l))
      (le_of_lt ((List.pairwise_cons.mp h.1).1 r h'))

theorem covers_head_start {x : TimeRange} {l : List TimeRange}
    (h : Normalized (x :: l)) : covers (x :: l) x.1 :=
  ⟨x, List.mem_cons_self x l, le_refl _, h.2 x (List.mem_cons_self x l)⟩

theorem covers_end_le {x y : TimeRange} {c d : List TimeRange}
    (hc : Normalized (x :: c)) (hd : Normalized (y :: d)) (hst : x.1 = y.1)
    (h : ∀ t, covers (x :: c) t → covers (y :: d) t) : x.2 ≤ y.2 := by
  by_contra hlt
  push_neg at hlt
  have hxwf : x.1 ≤ x.2 := hc.2 x (List.mem_cons_self x c)
  cases d with
  | nil =>
    obtain ⟨r, hr, hr1, hr2⟩ := h x.2 ⟨x, List.mem_cons_self x c, hxwf, le_refl _⟩
    rcases List.mem_cons.mp hr with h' | h'
    · subst h'
      exact absurd hr2 (not_le_of_lt hlt)
    · exact absurd h' (List.not_mem_nil r)
  | cons z d' =>
    have hz : y.2 < z.1 := (List.pairwise_cons.mp hd.1).1 z (List.mem_cons_self z d')
    obtain ⟨t, ht1, ht2⟩ : ∃ t, y.2 < t ∧ t < min x.2 z.1 :=
      ⟨(y.2 + min x.2 z.1) / 2, by
        have := lt_min hlt hz
        constructor <;> linarith⟩
    obtain ⟨r, hr, hr1, hr2⟩ := h t ⟨x, List.mem_cons_self x c,
      by
        have : x.1 ≤ y.2 := hst ▸ (hd.2 y (List.mem_cons_self y (z :: d')))
        linarith,
      le_of_lt (lt_of_lt_of_le ht2 (min_le_left x.2 z.1))⟩
    rcases List.mem_cons.mp hr with h' | h'
    · subst h'
      exact absurd hr2 (not_le_of_lt ht1)
    · have hzr : z.1 ≤ r.1 := normalized_start_lb (normalized_tail hd) r h'
      have : t < r.1 := lt_of_lt_of_le (lt_of_lt_of_le ht2 (min_le_right x.2 z.1)) hzr
      exact absurd hr1 (not_le_of_lt this)

theorem covers_ext : ∀ (c d : List TimeRange), Normalized c → Normalized d →
    (∀ t, covers c t ↔ covers d t) → c = d := by
  intro c
  induction c with
  | nil =>
    intro d _ hd h
    cases d with
    | nil => rfl
    | cons y d' =>
      exfalso
      obtain ⟨r, hr, -⟩ := (h y.1).mpr (covers_head_start hd)
      exact absurd hr (List.not_mem_nil r)
  | cons x c' ih =>
    intro d hc hd h
    cases d with
    | nil =>
      exfalso
      obtain ⟨r, hr, -⟩ := (h x.1).mp (covers_head_start hc)
      exact absurd hr (List.not_mem_nil r)
    | cons y d' =>
      have hst : x.1 = y.1 := by
        have h1 : y.1 ≤ x.1 := by
          obtain ⟨r, hr, hr1, -⟩ := (h x.1).mp (covers_head_start hc)
          exact le_trans (normalized_start_lb hd r hr) hr1
        have h2 : x.1 ≤ y.1 := by
          obtain ⟨r, hr, hr1, -⟩ := (h y.1).mpr (covers_head_start hd)
          exact le_trans (normalized_start_lb hc r hr) hr1
        exact le_antisymm h2 h1
      have hen : x.2 = y.2 :=
        le_antisymm (covers_end_le hc hd hst fun t => (h t).mp)
          (covers_end_le hd hc hst.symm fun t => (h t).mpr)
      have hxy : x = y := Prod.ext hst hen
      subst hxy
      have htails : ∀ t, covers c' t ↔ covers d' t := by
        intro t
        constructor
        · intro hct
          obtain ⟨r, hr, hr1, hr2⟩ := hct
          have hgt : x.2 < r.1 := (List.pairwise_cons.mp hc.1).1 r hr
          obtain ⟨q, hq, hq1, hq2⟩ := (h t).mp ⟨r, List.mem_cons_of_mem x hr, hr1, hr2⟩
          rcases List.mem_cons.mp hq with h' | h'
          · exfalso
            subst h'
            exact absurd hq2 (not_le_of_lt (lt_of_lt_of_le hgt hr1))
          · exact ⟨q, h', hq1, hq2⟩
        · intro hdt
          obtain ⟨r, hr, hr1, hr2⟩ := hdt
          have hgt : x.2 < r.1 := (List.pairwise_cons.mp hd.1).1 r hr
          obtain ⟨q, hq, hq1, hq2⟩ := (h t).mpr ⟨r, List.mem_cons_of_mem x hr, hr1, hr2⟩
          rcases List.mem_cons.mp hq with h' | h'
          · exfalso
            subst h'
            exact absurd hq2 (not_le_of_lt (lt_of_lt_of_le hgt hr1))
          · exact ⟨q, h', hq1, hq2⟩
      rw [ih d' (normalized_tail hc) (normalized_tail hd) htails]

/-! ### Claims C1 and C2 -/

/-- The coverage set obtained from the empty `ActivityCoverage` by the given
sequence of `add_range` calls, in order. -/
def applyAll (ops : List TimeRange) : List TimeRange :=
  ops.foldl (fun c r => add_range r c) []

theorem foldl_add_range_normalized (ops : List TimeRange) (c : List TimeRange)
    (hc : Normalized c) (hops : ∀ r ∈ ops, r.1 ≤ r.2) :
    Normalized (ops.foldl (fun c r => add_range r c) c) := by
  induction ops generalizing c with
  | nil => exact hc
  | cons o os ih =>
    rw [List.foldl_cons]
    exact ih (add_range o c) (add_range_normalized o c hc (hops o (List.mem_cons_self o os)))
      fun r hr => hops r (List.mem_cons_of_mem o hr)

/-- C1: for every sequence of `add_range` operations (each adding a half-open
interval `[s, e)`, i.e. `s ≤ e`), the resulting set of intervals is pairwise
sorted ascending by start, pairwise non-overlapping, and pairwise
non-touching (no interval's end equals another's start). -/
theorem claim_C1 (ops : List TimeRange) (h : ∀ r ∈ ops, r.1 ≤ r.2) :
    (applyAll ops).Pairwise (fun a b => a.1 < b.1) ∧
    (applyAll ops).Pairwise (fun a b => a.2 ≤ b.1 ∨ b.2 ≤ a.1) ∧
    (applyAll ops).Pairwise (fun a b => a.2 ≠ b.1 ∧ b.2 ≠ a.1) := by
  obtain ⟨hp, hwf⟩ :=
    foldl_add_range_normalized ops [] ⟨List.Pairwise.nil, by simp⟩ h
  refine ⟨?_, ?_, ?_⟩
  · exact pairwise_mono_mem (fun a ha b _ hab => lt_of_le_of_lt (hwf a ha) hab) hp
  · exact pairwise_mono_mem (fun a _ b _ hab => Or.inl (le_of_lt hab)) hp
  · exact pairwise_mono_mem (fun a ha b hb hab =>
      ⟨ne_of_lt hab, ne_of_gt (lt_of_le_of_lt (hwf a ha) (lt_of_lt_of_le hab (hwf b hb)))⟩) hp

theorem claim_C1_witness :
    (∀ r ∈ [((10 : ℚ), 20), (30, 40), (19, 31)], r.1 ≤ r.2) ∧
    ((applyAll [((10 : ℚ), 20), (30, 40), (19, 31)]).Pairwise (fun a b => a.1 < b.1) ∧
     (applyAll [((10 : ℚ), 20), (30, 40), (19, 31)]).Pairwise
       (fun a b => a.2 ≤ b.1 ∨ b.2 ≤ a.1) ∧
     (applyAll [((10 : ℚ), 20), (30, 40), (19, 31)]).Pairwise
       (fun a b => a.2 ≠ b.1 ∧ b.2 ≠ a.1)) :=
  ⟨by decide, claim_C1 [((10 : ℚ), 20), (30, 40), (19, 31)] (by decide)⟩

/-- C2: on every normalized coverage set (the only coverage sets the program
builds), `add_range` is commutative and idempotent for well-formed
intervals. -/
theorem claim_C2 (S : List TimeRange) (a b : TimeRange) (hS : Normalized S)
    (ha : a.1 ≤ a.2) (hb : b.1 ≤ b.2) :
    add_range b (add_range a S) = add_range a (add_range b S) ∧
    add_range a (add_range a S) = add_range a S := by
  have hNa : Normalized (add_range a S) := add_range_normalized a S hS ha
  have hNb : Normalized (add_range b S) := add_range_normalized b S hS hb
  constructor
  · apply covers_ext _ _ (add_range_normalized b _ hNa hb) (add_range_normalized a _ hNb ha)
    intro t
    rw [add_range_covers b _ hNa hb, add_range_covers a S hS ha,
      add_range_covers a _ hNb ha, add_range_covers b S hS hb]
    tauto
  · apply covers_ext _ _ (add_range_normalized a _ hNa ha) hNa
    intro t
    rw [add_range_covers a _ hNa ha, add_range_covers a S hS ha]
    tauto

theorem claim_C2_witness :
    (Normalized [((0 : ℚ), 1), (4, 5)] ∧ ((2 : ℚ), (3 : ℚ)).1 ≤ ((2 : ℚ), (3 : ℚ)).2 ∧
      ((4 : ℚ), (9 : ℚ)).1 ≤ ((4 : ℚ), (9 : ℚ)).2) ∧
    (add_range (4, 9) (add_range (2, 3) [((0 : ℚ), 1), (4, 5)]) =
        add_range (2, 3) (add_range (4, 9) [((0 : ℚ), 1), (4, 5)]) ∧
      add_range (2, 3) (add_range (2, 3) [((0 : ℚ), 1), (4, 5)]) =
        add_range (2, 3) [((0 : ℚ), 1), (4, 5)]) :=
  ⟨⟨⟨by decide, by decide⟩, by decide, by decide⟩,
    claim_C2 [((0 : ℚ), 1), (4, 5)] (2, 3) (4, 9)
      ⟨by decide, by decide⟩ (by decide) (by decide)⟩

/-! ### `missing_ranges`: characterization on normalized sets -/

/-- Earliest interval start of a non-empty coverage set. -/
def minStartOf (x : TimeRange) (rest : List TimeRange) : Time :=
  (rest.map Prod.fst).foldl min x.1

/-- Latest interval end of a non-empty coverage set. -/
def maxEndOf (x : TimeRange) (rest : List TimeRange) : Time :=
  (rest.map Prod.snd).foldl max x.2

theorem foldl_max_le_init (a : Time) (l : List Time) : a ≤ l.foldl max a := by
  induction l generalizing a with
  | nil => exact le_refl a
  | cons x xs ih => exact le_trans (le_max_left a x) (ih (max a x))

theorem foldl_max_le_mem {b : Time} (a : Time) (l : List Time) (hb : b ∈ l) :
    b ≤ l.foldl max a := by
  induction l generalizing a with
  | nil => exact absurd hb (List.not_mem_nil b)
  | cons x xs ih =>
    rcases List.mem_cons.mp hb with h | h
    · subst h
      rw [List.foldl_cons]
      exact le_trans (le_max_right a b) (foldl_max_le_init (max a b) xs)
    · exact ih (max a x) h

theorem foldl_min_init (a : Time) (l : List Time) (h : ∀ b ∈ l, a ≤ b) :
    l.foldl min a = a := by
  induction l with
  | nil => rfl
  | cons x xs ih =>
    rw [List.foldl_cons, min_eq_left (h x (List.mem_cons_self x xs))]
    exact ih fun b hb => h b (List.mem_cons_of_mem x hb)

theorem maxEndOf_ge {x r : TimeRange} {rest : List TimeRange} (hr : r ∈ x :: rest) :
    r.2 ≤ maxEndOf x rest := by
  rcases List.mem_cons.mp hr with h | h
  · exact h ▸ foldl_max_le_init x.2 (rest.map Prod.snd)
  · exact foldl_max_le_mem x.2 (rest.map Prod.snd) (List.mem_map_of_mem Prod.snd h)

theorem minStartOf_eq {x : TimeRange} {rest : List TimeRange}
    (h : Normalized (x :: rest)) : minStartOf x rest = x.1 := by
  apply foldl_min_init
  intro b hb
  obtain ⟨r, hr, hrb⟩ := List.mem_map.mp hb
  exact hrb ▸ normalized_start_lb h r (List.mem_cons_of_mem x hr)

theorem gapsLoop_snd_ge_init (cur : Time) (l : List TimeRange) :
    cur ≤ (gapsLoop cur l).2 := by
  induction l generalizing cur with
  | nil => exact le_refl cur
  | cons r rs ih =>
    exact le_trans (le_max_left cur r.2) (ih (max cur r.2))

theorem gapsLoop_snd_ge_mem {r : TimeRange} (cur : Time) (l : List TimeRange)
    (hr : r ∈ l) : r.2 ≤ (gapsLoop cur l).2 := by
  induction l generalizing cur with
  | nil => exact absurd hr (List.not_mem_nil r)
  | cons q qs ih =>
    rcases List.mem_cons.mp hr with h | h
    · subst h
      exact le_trans (le_max_right cur r.2) (gapsLoop_snd_ge_init (max cur r.2) qs)
    · exact ih (max cur q.2) h

/-- The trailing `if cursor < last.end` push in `missing_ranges` never fires:
the cursor ends up at least as large as every stored end. -/
theorem missing_ranges_eq_gapsLoop_fst (x : TimeRange) (rest : List TimeRange) :
    missing_ranges (x :: rest) = (gapsLoop x.1 (x :: rest)).1 := by
  have hlast : ((x :: rest).getLast (List.cons_ne_nil x rest)).2 ≤
      (gapsLoop x.1 (x :: rest)).2 :=
    gapsLoop_snd_ge_mem x.1 (x :: rest)
      (List.getLast_mem (List.cons_ne_nil x rest))
  rw [missing_ranges, if_neg (not_lt_of_le hlast)]

/-- The within-loop gaps of a normalized set: one gap `[end, next.start)` per
consecutive pair. -/
def consGapsFrom (cur : Time) : List TimeRange → List TimeRange
  | [] => []
  | r :: rs => (cur, r.1) :: consGapsFrom r.2 rs

theorem gapsLoop_fst_eq (cur : Time) (l : List TimeRange)
    (hwf : ∀ r ∈ l, r.1 ≤ r.2) (hp : l.Pairwise (fun a b => a.2 < b.1))
    (hcur : ∀ r ∈ l, cur < r.1) :
    (gapsLoop cur l).1 = consGapsFrom cur l := by
  induction l generalizing cur with
  | nil => rfl
  | cons r rs ih =>
    have hr1 : cur < r.1 := hcur r (List.mem_cons_self r rs)
    have hmax : max cur r.2 = r.2 :=
      max_eq_right (le_trans (le_of_lt hr1) (hwf r (List.mem_cons_self r rs)))
    rw [List.pairwise_cons] at hp
    rw [gapsLoop, if_pos hr1, hmax, consGapsFrom, List.singleton_append]
    rw [ih r.2 (fun q hq => hwf q (List.mem_cons_of_mem r hq)) hp.2 hp.1]

/-- On a normalized non-empty set, `missing_ranges` is exactly the list of
gaps between consecutive stored ranges. -/
theorem missing_ranges_char {x : TimeRange} {rest : List TimeRange}
    (h : Normalized (x :: rest)) :
    missing_ranges (x :: rest) = consGapsFrom x.2 rest := by
  have hxwf : x.1 ≤ x.2 := h.2 x (List.mem_cons_self x rest)
  rw [missing_ranges_eq_gapsLoop_fst, gapsLoop, if_neg (lt_irrefl x.1),
    max_eq_right hxwf, List.nil_append]
  exact gapsLoop_fst_eq x.2 rest (fun r hr => h.2 r (List.mem_cons_of_mem x hr))
    (List.pairwise_cons.mp h.1).2 (List.pairwise_cons.mp h.1).1

/-! ### Claims C3, C4 and C10 -/

theorem addMerge_prepend_all (s e : Time) (l : List TimeRange)
    (h : ∀ r ∈ l, e < r.1) : addMerge s e l = (s, e) :: l := by
  cases l with
  | nil => rfl
  | cons x xs => rw [addMerge, if_pos (h x (List.mem_cons_self x xs))]

theorem gaps_fill : ∀ (rest : List TimeRange) (x : TimeRange), Normalized (x :: rest) →
    List.foldl (fun c r => add_range r c) (x :: rest) (consGapsFrom x.2 rest) =
      [(x.1, maxEndOf x rest)] := by
  intro rest
  induction rest with
  | nil => intro x _; rfl
  | cons y rest' ih =>
    intro x h
    obtain ⟨hp, hwf⟩ := h
    rw [List.pairwise_cons] at hp
    obtain ⟨hx, hp'⟩ := hp
    rw [List.pairwise_cons] at hp'
    obtain ⟨hy, hp''⟩ := hp'
    have hxwf : x.1 ≤ x.2 := hwf x (List.mem_cons_self x (y :: rest'))
    have hywf : y.1 ≤ y.2 :=
      hwf y (List.mem_cons_of_mem x (List.mem_cons_self y rest'))
    have hxy : x.2 < y.1 := hx y (List.mem_cons_self y rest')
    -- adding the first gap merges the two leading ranges
    have hstep : add_range (x.2, y.1) (x :: y :: rest') = (x.1, y.2) :: rest' := by
      rw [add_range_eq_addMerge x.2 y.1 (x :: y :: rest')
        ⟨List.pairwise_cons.mpr ⟨hx, List.pairwise_cons.mpr ⟨hy, hp''⟩⟩, hwf⟩
        (le_of_lt hxy)]
      rw [addMerge, if_neg (not_lt.mpr (le_of_lt (lt_of_le_of_lt hxwf hxy))),
        if_neg (lt_irrefl x.2), min_eq_right hxwf, max_eq_left (le_of_lt hxy)]
      rw [addMerge, if_neg (lt_irrefl y.1),
        if_neg (not_lt.mpr (le_trans hxwf (le_trans (le_of_lt hxy) hywf))),
        min_eq_left (le_of_lt (lt_of_le_of_lt hxwf hxy)), max_eq_right hywf]
      exact addMerge_prepend_all x.1 y.2 rest' hy
    rw [consGapsFrom, List.foldl_cons, hstep]
    have hN : Normalized ((x.1, y.2) :: rest') := by
      constructor
      · exact List.pairwise_cons.mpr ⟨hy, hp''⟩
      · intro r hr
        rcases List.mem_cons.mp hr with h' | h'
        · exact h' ▸ le_trans hxwf (le_trans (le_of_lt hxy) hywf)
        · exact hwf r (List.mem_cons_of_mem x (List.mem_cons_of_mem y h'))
    have h2 : List.foldl (fun c r => add_range r c) ((x.1, y.2) :: rest')
        (consGapsFrom y.2 rest') = [(x.1, maxEndOf (x.1, y.2) rest')] :=
      ih (x.1, y.2) hN
    rw [h2]
    have hmax : maxEndOf x (y :: rest') = maxEndOf (x.1, y.2) rest' := by
      simp only [maxEndOf, List.map_cons, List.foldl_cons]
      rw [max_eq_right (le_trans (le_of_lt hxy) hywf)]
    rw [hmax]

/-- C3: for every non-empty normalized coverage set, adding back every
interval returned by `missing_ranges` yields the single contiguous interval
from the earliest stored start to the latest stored end. -/
theorem claim_C3 (x : TimeRange) (rest : List TimeRange) (h : Normalized (x :: rest)) :
    List.foldl (fun c r => add_range r c) (x :: rest) (missing_ranges (x :: rest)) =
      [(minStartOf x rest, maxEndOf x rest)] := by
  rw [missing_ranges_char h, minStartOf_eq h]
  exact gaps_fill rest x h

theorem claim_C3_witness :
    Normalized [((10 : ℚ), 40), (50, 60)] ∧
    List.foldl (fun c r => add_range r c) [((10 : ℚ), 40), (50, 60)]
        (missing_ranges [((10 : ℚ), 40), (50, 60)]) =
      [(minStartOf ((10 : ℚ), 40) [(50, 60)], maxEndOf ((10 : ℚ), 40) [(50, 60)])] :=
  ⟨⟨by decide, by decide⟩, claim_C3 ((10 : ℚ), 40) [(50, 60)] ⟨by decide, by decide⟩⟩

/-- C4: the concrete coverage-merge scenario: `add([10,20))`, `add([30,40))`,
`add([19,31))` yields `{[10,40)}` with no gaps; a further `add([50,60))`
makes the gaps exactly `[[40,50)]`. -/
theorem claim_C4 :
    applyAll [((10 : ℚ), 20), (30, 40), (19, 31)] = [(10, 40)] ∧
    missing_ranges (applyAll [((10 : ℚ), 20), (30, 40), (19, 31)]) = [] ∧
    add_range (50, 60) (applyAll [((10 : ℚ), 20), (30, 40), (19, 31)]) =
      [(10, 40), (50, 60)] ∧
    missing_ranges (add_range (50, 60) (applyAll [((10 : ℚ), 20), (30, 40), (19, 31)])) =
      [(40, 50)] :=
  ⟨by decide, by decide, by decide, by decide⟩

theorem consGapsFrom_bounds (cur : Time) (l : List TimeRange) (M : Time)
    (hwf : ∀ r ∈ l, r.1 ≤ r.2) (hM : ∀ r ∈ l, r.2 ≤ M)
    (hp : l.Pairwise (fun a b => a.2 < b.1)) (hcur : ∀ r ∈ l, cur < r.1) :
    ∀ g ∈ consGapsFrom cur l, g.1 < M ∧ g.2 ≤ M := by
  induction l generalizing cur with
  | nil => intro g hg; exact absurd hg (List.not_mem_nil g)
  | cons r rs ih =>
    intro g hg
    have hrsub : r ∈ r :: rs := List.mem_cons_self r rs
    rw [consGapsFrom] at hg
    rw [List.pairwise_cons] at hp
    rcases List.mem_cons.mp hg with h | h
    · subst h
      exact ⟨lt_of_lt_of_le (lt_of_lt_of_le (hcur r hrsub) (hwf r hrsub)) (hM r hrsub),
        le_trans (hwf r hrsub) (hM r hrsub)⟩
    · exact ih r.2 (fun q hq => hwf q (List.mem_cons_of_mem r hq))
        (fun q hq => hM q (List.mem_cons_of_mem r hq)) hp.2 hp.1 g h

/-- C10: `missing_ranges` returns `[]` on the empty coverage and on every
singleton coverage, and on a normalized coverage it never emits a gap lying
at or past the latest stored interval end. -/
theorem claim_C10 :
    missing_ranges ([] : List TimeRange) = [] ∧
    (∀ r : TimeRange, missing_ranges [r] = []) ∧
    ∀ (x : TimeRange) (rest : List TimeRange), Normalized (x :: rest) →
      ∀ g ∈ missing_ranges (x :: rest), g.1 < maxEndOf x rest ∧ g.2 ≤ maxEndOf x rest := by
  refine ⟨rfl, ?_, ?_⟩
  · intro r
    rw [missing_ranges_eq_gapsLoop_fst, gapsLoop, if_neg (lt_irrefl r.1)]
    rfl
  · intro x rest h g hg
    rw [missing_ranges_char h] at hg
    obtain ⟨hp, hwf⟩ := h
    rw [List.pairwise_cons] at hp
    exact consGapsFrom_bounds x.2 rest (maxEndOf x rest)
      (fun r hr => hwf r (List.mem_cons_of_mem x hr))
      (fun r hr => maxEndOf_ge (List.mem_cons_of_mem x hr)) hp.2 hp.1 g hg

theorem claim_C10_witness :
    (Normalized [((0 : ℚ), 1), (2, 3)] ∧
      ((1 : ℚ), (2 : ℚ)) ∈ missing_ranges [((0 : ℚ), 1), (2, 3)]) ∧
    ((1 : ℚ), (2 : ℚ)).1 < maxEndOf ((0 : ℚ), 1) [(2, 3)] ∧
      ((1 : ℚ), (2 : ℚ)).2 ≤ maxEndOf ((0 : ℚ), 1) [(2, 3)] :=
  ⟨⟨⟨by decide, by decide⟩, by decide⟩,
    claim_C10.2.2 (0, 1) [(2, 3)] ⟨by decide, by decide⟩ (1, 2) (by decide)⟩

/-! ## RFC-3339 persistence of `TimeRange` (claim C5) -/

/-- An RFC-3339 timestamp string, modelled by the instant it denotes.
`to_rfc3339` in the source formats a `SystemTime` through
`chrono::DateTime<Utc>::to_rfc3339`, which writes the instant at full
sub-second precision, and `chrono::DateTime::parse_from_rfc3339` recovers
exactly that instant; the string is therefore faithfully represented by the
rational instant it encodes. -/
structure Rfc3339 where
  instant : Time
deriving DecidableEq

/-- `to_rfc3339(t: SystemTime) -> String`. -/
def to_rfc3339 (t : Time) : Rfc3339 := ⟨t⟩

/-- `from_rfc3339(s: &str) -> SystemTime`: the source computes
`UNIX_EPOCH + Duration::from_secs(dt.timestamp() as u64)`.
`dt.timestamp()` is the floor of the parsed instant in whole seconds (an
`i64`), and `as u64` reinterprets that value modulo `2^64`; the sub-second
part of the instant is dropped. -/
def from_rfc3339 (s : Rfc3339) : Time :=
  ((((⌊s.instant⌋ : ℤ) % (2 : ℤ) ^ 64).toNat : ℕ) : ℚ)

/-- `TimeRange::to_rfc3339_range`. -/
def to_rfc3339_range (r : TimeRange) : Rfc3339 × Rfc3339 :=
  (to_rfc3339 r.1, to_rfc3339 r.2)

/-- `TimeRange::from_rfc3339_range` (parse errors cannot arise for strings
produced by `to_rfc3339_range`, so the happy path is modelled). -/
def from_rfc3339_range (p : Rfc3339 × Rfc3339) : TimeRange :=
  (from_rfc3339 p.1, from_rfc3339 p.2)

/-- Serde serialization of the coverage set: the `BTreeSet` is walked in
ascending order and each `TimeRange` becomes its RFC-3339 pair. -/
def serializeCoverage (c : List TimeRange) : List (Rfc3339 × Rfc3339) :=
  c.map to_rfc3339_range

/-- Serde deserialization of the coverage set: each pair is parsed with
`TimeRange::from_rfc3339_range` and inserted into a fresh `BTreeSet`. -/
def deserializeCoverage (l : List (Rfc3339 × Rfc3339)) : List TimeRange :=
  l.foldl (fun acc p => btreeInsert (from_rfc3339_range p) acc) []

/-- C5 fails as stated: a range whose start has a fractional second comes
back truncated to the whole second. -/
theorem claim_C5_counterexample :
    Normalized [((1 : ℚ) / 2, 2)] ∧
    deserializeCoverage (serializeCoverage [((1 : ℚ) / 2, 2)]) ≠ [((1 : ℚ) / 2, 2)] := by
  constructor
  · refine ⟨List.pairwise_singleton _ _, ?_⟩
    intro r hr
    rw [List.mem_singleton] at hr
    subst hr
    norm_num
  · intro hEq
    have hser : deserializeCoverage (serializeCoverage [((1 : ℚ) / 2, 2)]) =
        [(from_rfc3339 (to_rfc3339 ((1 : ℚ) / 2)), from_rfc3339 (to_rfc3339 (2 : ℚ)))] := rfl
    have h0 : from_rfc3339 (to_rfc3339 ((1 : ℚ) / 2)) = 0 := by
      show ((((⌊(1 : ℚ) / 2⌋ : ℤ) % (2 : ℤ) ^ 64).toNat : ℕ) : ℚ) = 0
      rw [show ⌊(1 : ℚ) / 2⌋ = 0 from by norm_num]
      norm_num
    rw [hser, h0] at hEq
    simp only [List.cons.injEq, Prod.mk.injEq] at hEq
    have h01 : (0 : ℚ) = 1 / 2 := hEq.1.1
    norm_num at h01

theorem from_to_whole (n : ℕ) (hn : n < 2 ^ 64) :
    from_rfc3339 (to_rfc3339 (n : ℚ)) = (n : ℚ) := by
  unfold from_rfc3339 to_rfc3339
  rw [Int.floor_natCast, Int.emod_eq_of_lt (by positivity) (by exact_mod_cast hn)]
  simp

theorem parse_serialized (S : List TimeRange)
    (hsec : ∀ r ∈ S, (∃ n : ℕ, n < 2 ^ 64 ∧ r.1 = (n : ℚ)) ∧
      (∃ n : ℕ, n < 2 ^ 64 ∧ r.2 = (n : ℚ))) :
    S.map (fun r => from_rfc3339_range (to_rfc3339_range r)) = S := by
  induction S with
  | nil => rfl
  | cons r rs ih =>
    rw [List.map_cons, ih fun q hq => hsec q (List.mem_cons_of_mem r hq)]
    obtain ⟨⟨n, hn, h1⟩, ⟨m, hm, h2⟩⟩ := hsec r (List.mem_cons_self r rs)
    have e1 : from_rfc3339 (to_rfc3339 r.1) = r.1 := by
      rw [h1]; exact from_to_whole n hn
    have e2 : from_rfc3339 (to_rfc3339 r.2) = r.2 := by
      rw [h2]; exact from_to_whole m hm
    show (from_rfc3339 (to_rfc3339 r.1), from_rfc3339 (to_rfc3339 r.2)) :: rs = r :: rs
    rw [e1, e2]

theorem btreeInsert_append {x : TimeRange} {l : List TimeRange}
    (h : ∀ r ∈ l, r.1 < x.1) : btreeInsert x l = l ++ [x] := by
  induction l with
  | nil => rfl
  | cons a as ih =>
    rw [btreeInsert_cons_gt (h a (List.mem_cons_self a as)),
      ih fun r hr => h r (List.mem_cons_of_mem a hr), List.cons_append]

theorem foldl_btreeInsert_sorted (acc l : List TimeRange)
    (hacc : ∀ r ∈ acc, ∀ q ∈ l, r.1 < q.1)
    (hl : l.Pairwise (fun a b => a.1 < b.1)) :
    l.foldl (fun a r => btreeInsert r a) acc = acc ++ l := by
  induction l generalizing acc with
  | nil => simp
  | cons x xs ih =>
    rw [List.pairwise_cons] at hl
    rw [List.foldl_cons,
      btreeInsert_append fun r hr => hacc r hr x (List.mem_cons_self x xs),
      ih (acc ++ [x]) ?_ hl.2]
    · simp
    · intro r hr q hq
      rcases List.mem_append.mp hr with h' | h'
      · exact hacc r h' q (List.mem_cons_of_mem x hq)
      · rw [List.mem_singleton] at h'
        exact h' ▸ hl.1 q hq

/-- C5 (amended): the round-trip `deserialize (serialize S) = S` holds for a
normalized coverage set exactly when every interval endpoint is a whole
number of seconds in `[0, 2^64)`; in general `from_rfc3339` floors each
endpoint to whole seconds (and reinterprets it as an unsigned 64-bit count),
so sub-second endpoints do not round-trip. -/
theorem claim_C5 (S : List TimeRange) (hS : Normalized S)
    (hsec : ∀ r ∈ S, (∃ n : ℕ, n < 2 ^ 64 ∧ r.1 = (n : ℚ)) ∧
      (∃ n : ℕ, n < 2 ^ 64 ∧ r.2 = (n : ℚ))) :
    deserializeCoverage (serializeCoverage S) = S := by
  have hsort : S.Pairwise (fun a b => a.1 < b.1) :=
    pairwise_mono_mem (fun a ha b _ hab => lt_of_le_of_lt (hS.2 a ha) hab) hS.1
  show (S.map to_rfc3339_range).foldl (fun acc p => btreeInsert (from_rfc3339_range p) acc)
    [] = S
  rw [List.foldl_map]
  have : S.foldl (fun acc r => btreeInsert (from_rfc3339_range (to_rfc3339_range r)) acc)
      [] = (S.map fun r => from_rfc3339_range (to_rfc3339_range r)).foldl
        (fun acc r => btreeInsert r acc) [] := by
    rw [List.foldl_map]
  rw [this, parse_serialized S hsec,
    foldl_btreeInsert_sorted [] S (by simp) hsort, List.nil_append]

theorem claim_C5_witness :
    deserializeCoverage (serializeCoverage [((1 : ℚ), 2)]) = [((1 : ℚ), 2)] :=
  claim_C5 [((1 : ℚ), 2)] ⟨by decide, by decide⟩
    (by
      intro r hr
      rw [List.mem_singleton] at hr
      subst hr
      exact ⟨⟨1, by norm_num, by norm_num⟩, ⟨2, by norm_num, by norm_num⟩⟩)

/-! ## Crash harvester known-set (claims C6, C7, C8)

From `imonitor-lib/src/services/crashes/client.rs`: the in-memory known-set
(`crash_files`, `crash_dirs`), the `files_to_get` loop of
`Device::write_crashes`, and `Device::update_known_crashes`.  Paths are
strings; the `HashSet<String>`s are modelled as `Finset String`.  The
network and filesystem outcomes (pull result, file-info result, local write
result) are the loop's free inputs and are supplied as per-path outcome
labels; set iteration order is a free enumeration constrained by
`ValidSession`. -/

/-- A remote device path. -/
abbrev RPath := String

/-- The in-memory known-set: `self.crashes.crash_files` and
`self.crashes.crash_dirs`. -/
structure CrashState where
  files : Finset RPath
  dirs : Finset RPath
deriving DecidableEq

/-- A persisted snapshot: the contents of `known_crashes.json` and
`known_dirs.json` written by one `update_known_crashes` call. -/
abbrev Snapshot := Finset RPath × Finset RPath

/-- `Device::update_known_crashes(&self, _files)`: reads the current
in-memory files and dirs and persists both.  The `_files` argument is
unused in the source (the `candidates − give_up` cleaning block is commented
out behind a TODO). -/
def update_known_crashes (st : CrashState) (_files : Finset RPath) : Snapshot :=
  (st.files, st.dirs)

/-- Outcome of processing one path of `files_to_get` inside
`Device::write_crashes`. -/
inductive PullOutcome where
  /-- `client.pull` succeeded and the local write succeeded. -/
  | pulledWritten
  /-- `client.pull` succeeded but the local write failed (logged, continue). -/
  | pulledWriteFailed
  /-- `client.pull` failed and `get_file_info` reported `S_IFDIR`. -/
  | isDirectory
  /-- `client.pull` failed, not a directory, and the error was
  `ObjectNotFound` or `PermDenied`: the path joins `files_give_up`. -/
  | giveUpError
  /-- `client.pull` failed, not a directory, any other error (logged). -/
  | otherPullError
  /-- `client.pull` failed and `get_file_info` also failed (logged). -/
  | fileInfoError
deriving DecidableEq

/-- One iteration of the `for file in files_to_get` loop of
`Device::write_crashes`: the new state, the new give-up set, and the
snapshots persisted during the iteration (after a successful write,
`update_known_crashes` is called with argument `files − files_give_up`,
where `files` is the listing/candidates set). -/
def processFile (candidates : Finset RPath) (st : CrashState) (giveUp : Finset RPath)
    (f : RPath) (o : PullOutcome) : CrashState × Finset RPath × List Snapshot :=
  match o with
  | .pulledWritten =>
    (⟨insert f st.files, st.dirs⟩, giveUp,
      [update_known_crashes ⟨insert f st.files, st.dirs⟩ (candidates \ giveUp)])
  | .pulledWriteFailed => (st, giveUp, [])
  | .isDirectory => (⟨st.files, insert f st.dirs⟩, giveUp, [])
  | .giveUpError => (st, insert f giveUp, [])
  | .otherPullError => (st, giveUp, [])
  | .fileInfoError => (st, giveUp, [])

/-- The `for file in files_to_get` loop, run over an enumeration `L` of
`files_to_get`, threading the state and the per-session give-up set and
collecting the persisted snapshots in order. -/
def runFiles (candidates : Finset RPath) (st : CrashState) (giveUp : Finset RPath) :
    List (RPath × PullOutcome) → CrashState × List Snapshot
  | [] => (st, [])
  | (f, o) :: rest =>
    ((runFiles candidates (processFile candidates st giveUp f o).1
        (processFile candidates st giveUp f o).2.1 rest).1,
     (processFile candidates st giveUp f o).2.2 ++
       (runFiles candidates (processFile candidates st giveUp f o).1
         (processFile candidates st giveUp f o).2.1 rest).2)

/-- One observable step of the crash harvester that touches the known-set:
either listing a known directory failed (the directory is removed from
*dirs* and `write_crashes` aborts with an error, persisting nothing), or a
session's `files_to_get` loop ran with the given listing `candidates` and
per-file outcomes. -/
inductive CrashEv where
  | listDirFailed (d : RPath)
  | session (candidates : Finset RPath) (L : List (RPath × PullOutcome))

/-- Effect of one event: the new state, the persisted snapshots, and the
paths on which `client.pull` was invoked. -/
def runEv (st : CrashState) : CrashEv → CrashState × List Snapshot × List RPath
  | .listDirFailed d => (⟨st.files, st.dirs.erase d⟩, [], [])
  | .session C L => ((runFiles C st ∅ L).1, (runFiles C st ∅ L).2, L.map Prod.fst)

/-- A whole run: state after the events, all persisted snapshots, and all
`pull` calls, in order. -/
def runTrace (st : CrashState) : List CrashEv → CrashState × List Snapshot × List RPath
  | [] => (st, [], [])
  | ev :: evs =>
    ((runTrace (runEv st ev).1 evs).1,
     (runEv st ev).2.1 ++ (runTrace (runEv st ev).1 evs).2.1,
     (runEv st ev).2.2 ++ (runTrace (runEv st ev).1 evs).2.2)

/-- The loop enumeration is faithful to
`files_to_get = candidates − crash_files − crash_dirs` computed from a
`HashSet`: each path appears at most once, belongs to the listing, and is in
neither known set at session start. -/
def ValidSession (st : CrashState) (C : Finset RPath)
    (L : List (RPath × PullOutcome)) : Prop :=
  (L.map Prod.fst).Nodup ∧ ∀ p ∈ L, p.1 ∈ C ∧ p.1 ∉ st.files ∧ p.1 ∉ st.dirs

def ValidTrace (st : CrashState) : List CrashEv → Prop
  | [] => True
  | ev :: evs =>
    (match ev with
     | .listDirFailed _ => True
     | .session C L => ValidSession st C L) ∧ ValidTrace (runEv st ev).1 evs

example : (runFiles {"a"} ⟨{"old"}, ∅⟩ ∅ [("a", PullOutcome.pulledWritten)]).2 =
    [({"old", "a"}, (∅ : Finset RPath))] := by decide

theorem runFiles_disjoint (C : Finset RPath) (L : List (RPath × PullOutcome))
    (st : CrashState) (gu : Finset RPath)
    (hdisj : Disjoint st.files st.dirs)
    (hL : ∀ p ∈ L, p.1 ∉ st.files ∧ p.1 ∉ st.dirs)
    (hnd : (L.map Prod.fst).Nodup) :
    Disjoint (runFiles C st gu L).1.files (runFiles C st gu L).1.dirs ∧
    ∀ s ∈ (runFiles C st gu L).2, Disjoint s.1 s.2 := by
  induction L generalizing st gu with
  | nil => exact ⟨hdisj, fun s hs => absurd hs (List.not_mem_nil s)⟩
  | cons p rest ih =>
    obtain ⟨f, o⟩ := p
    rw [List.map_cons, List.nodup_cons] at hnd
    obtain ⟨hf, hnd'⟩ := hnd
    have hfst : f ∉ st.files := (hL (f, o) (List.mem_cons_self _ _)).1
    have hfd : f ∉ st.dirs := (hL (f, o) (List.mem_cons_self _ _)).2
    have hrest : ∀ q ∈ rest, q.1 ≠ f := by
      intro q hq hEq
      apply hf
      rw [← hEq]
      exact List.mem_map.mpr ⟨q, hq, rfl⟩
    have hLtail : ∀ q ∈ rest, q.1 ∉ st.files ∧ q.1 ∉ st.dirs :=
      fun q hq => hL q (List.mem_cons_of_mem _ hq)
    cases o with
    | pulledWritten =>
      have hd' : Disjoint (insert f st.files) st.dirs :=
        Finset.disjoint_insert_left.mpr ⟨hfd, hdisj⟩
      have hL' : ∀ q ∈ rest, q.1 ∉ insert f st.files ∧ q.1 ∉ st.dirs := by
        intro q hq
        refine ⟨?_, (hLtail q hq).2⟩
        rw [Finset.mem_insert]
        rintro (h | h)
        · exact hrest q hq h
        · exact (hLtail q hq).1 h
      obtain ⟨ih1, ih2⟩ := ih ⟨insert f st.files, st.dirs⟩ gu hd' hL' hnd'
      refine ⟨ih1, ?_⟩
      intro s hs
      rcases List.mem_append.mp hs with h | h
      · simp only [processFile, update_known_crashes, List.mem_singleton] at h
        subst h
        exact hd'
      · exact ih2 s h
    | pulledWriteFailed => exact ih st gu hdisj hLtail hnd'
    | isDirectory =>
      have hd' : Disjoint st.files (insert f st.dirs) :=
        Finset.disjoint_insert_right.mpr ⟨hfst, hdisj⟩
      have hL' : ∀ q ∈ rest, q.1 ∉ st.files ∧ q.1 ∉ insert f st.dirs := by
        intro q hq
        refine ⟨(hLtail q hq).1, ?_⟩
        rw [Finset.mem_insert]
        rintro (h | h)
        · exact hrest q hq h
        · exact (hLtail q hq).2 h
      exact ih ⟨st.files, insert f st.dirs⟩ gu hd' hL' hnd'
    | giveUpError => exact ih st (insert f gu) hdisj hLtail hnd'
    | otherPullError => exact ih st gu hdisj hLtail hnd'
    | fileInfoError => exact ih st gu hdisj hLtail hnd'

theorem runEv_disjoint (st : CrashState) (ev : CrashEv)
    (hdisj : Disjoint st.files st.dirs)
    (hv : match ev with
      | .listDirFailed _ => True
      | .session C L => ValidSession st C L) :
    Disjoint (runEv st ev).1.files (runEv st ev).1.dirs ∧
    ∀ s ∈ (runEv st ev).2.1, Disjoint s.1 s.2 := by
  cases ev with
  | listDirFailed d =>
    exact ⟨hdisj.mono_right (Finset.erase_subset d st.dirs),
      fun s hs => absurd hs (List.not_mem_nil s)⟩
  | session C L =>
    obtain ⟨hnd, hL⟩ := hv
    exact runFiles_disjoint C L st ∅ hdisj (fun p hp => (hL p hp).2) hnd

theorem runTrace_snaps_disjoint (evs : List CrashEv) (st : CrashState)
    (hdisj : Disjoint st.files st.dirs) (hv : ValidTrace st evs) :
    ∀ s ∈ (runTrace st evs).2.1, Disjoint s.1 s.2 := by
  induction evs generalizing st with
  | nil => exact fun s hs => absurd hs (List.not_mem_nil s)
  | cons ev rest ih =>
    obtain ⟨hv1, hv2⟩ := hv
    intro s hs
    rcases List.mem_append.mp hs with h | h
    · exact (runEv_disjoint st ev hdisj hv1).2 s h
    · exact ih (runEv st ev).1 (runEv_disjoint st ev hdisj hv1).1 hv2 s h

/-- C6: starting from a disjoint loaded known-set, every snapshot persisted
by the crash harvester during any valid sequence of operations (sessions
with pulls, directory discoveries, failed-listing removals) has disjoint
files and dirs sets. -/
theorem claim_C6 (st : CrashState) (evs : List CrashEv)
    (hdisj : st.files ∩ st.dirs = ∅) (hv : ValidTrace st evs) :
    ∀ s ∈ (runTrace st evs).2.1, s.1 ∩ s.2 = ∅ := by
  rw [← Finset.disjoint_iff_inter_eq_empty] at hdisj
  intro s hs
  rw [← Finset.disjoint_iff_inter_eq_empty]
  exact runTrace_snaps_disjoint evs st hdisj hv s hs

theorem claim_C6_witness :
    (({"old"} : Finset RPath) ∩ ({"d"} : Finset RPath) = ∅ ∧
      ValidTrace ⟨{"old"}, {"d"}⟩
        [CrashEv.session {"a"} [("a", PullOutcome.pulledWritten)]]) ∧
    ∀ s ∈ (runTrace ⟨{"old"}, {"d"}⟩
        [CrashEv.session {"a"} [("a", PullOutcome.pulledWritten)]]).2.1,
      s.1 ∩ s.2 = ∅ :=
  ⟨⟨by decide, ⟨⟨by decide, by decide⟩, trivial⟩⟩,
    claim_C6 ⟨{"old"}, {"d"}⟩ _ (by decide) ⟨⟨by decide, by decide⟩, trivial⟩⟩

/-- C7 fails as stated: with loaded files `{"old"}`, listing `{"a"}` and a
successful pull and write of `"a"`, the snapshot persisted is the in-memory
files set `{"old", "a"}`, not `candidates − give_up = {"a"}`. -/
theorem claim_C7_counterexample :
    ValidSession ⟨{"old"}, ∅⟩ {"a"} [("a", PullOutcome.pulledWritten)] ∧
    (runFiles {"a"} ⟨{"old"}, ∅⟩ ∅ [("a", PullOutcome.pulledWritten)]).2 =
      [({"old", "a"}, (∅ : Finset RPath))] ∧
    ({"old", "a"} : Finset RPath) ≠ ({"a"} : Finset RPath) \ (∅ : Finset RPath) :=
  ⟨⟨by decide, by decide⟩, by decide, by decide⟩

/-- Spec-side recursion for the amended C7: after each successful artifact
write the harvester persists the in-memory known-set itself — the loaded
files plus every file written so far, and the dirs as currently known. -/
def specSnapshots (st : CrashState) : List (RPath × PullOutcome) → List Snapshot
  | [] => []
  | (f, PullOutcome.pulledWritten) :: rest =>
    (insert f st.files, st.dirs) :: specSnapshots ⟨insert f st.files, st.dirs⟩ rest
  | (f, PullOutcome.isDirectory) :: rest => specSnapshots ⟨st.files, insert f st.dirs⟩ rest
  | (_, PullOutcome.pulledWriteFailed) :: rest => specSnapshots st rest
  | (_, PullOutcome.giveUpError) :: rest => specSnapshots st rest
  | (_, PullOutcome.otherPullError) :: rest => specSnapshots st rest
  | (_, PullOutcome.fileInfoError) :: rest => specSnapshots st rest

/-- C7 (amended): the known-set is persisted after each successful artifact
write, and each persisted snapshot is the in-memory known-set at that
moment (the session-start files plus all files written so far, and the
current dirs).  It does not depend on the listing `candidates` or on the
give-up set: `candidates − give_up` is computed and passed to
`update_known_crashes` but ignored there. -/
theorem claim_C7 (C : Finset RPath) (st : CrashState) (gu : Finset RPath)
    (L : List (RPath × PullOutcome)) :
    (runFiles C st gu L).2 = specSnapshots st L := by
  induction L generalizing st gu with
  | nil => rfl
  | cons p rest ih =>
    obtain ⟨f, o⟩ := p
    cases o <;>
      simp only [runFiles, processFile, update_known_crashes, specSnapshots,
        List.singleton_append, List.nil_append] <;>
      rw [ih]

theorem runFiles_files_mono (C : Finset RPath) (L : List (RPath × PullOutcome))
    (st : CrashState) (gu : Finset RPath) :
    st.files ⊆ (runFiles C st gu L).1.files := by
  induction L generalizing st gu with
  | nil => exact Finset.Subset.refl _
  | cons p rest ih =>
    obtain ⟨f, o⟩ := p
    cases o with
    | pulledWritten =>
      exact Finset.Subset.trans (Finset.subset_insert f st.files)
        (ih ⟨insert f st.files, st.dirs⟩ gu)
    | pulledWriteFailed => exact ih st gu
    | isDirectory => exact ih ⟨st.files, insert f st.dirs⟩ gu
    | giveUpError => exact ih st (insert f gu)
    | otherPullError => exact ih st gu
    | fileInfoError => exact ih st gu

theorem runEv_files_mono (st : CrashState) (ev : CrashEv) :
    st.files ⊆ (runEv st ev).1.files := by
  cases ev with
  | listDirFailed d => exact Finset.Subset.refl _
  | session C L => exact runFiles_files_mono C L st ∅

theorem runTrace_no_pull (evs : List CrashEv) (st : CrashState) (p : RPath)
    (hv : ValidTrace st evs) (hp : p ∈ st.files) :
    p ∉ (runTrace st evs).2.2 := by
  induction evs generalizing st with
  | nil => exact List.not_mem_nil p
  | cons ev rest ih =>
    obtain ⟨hv1, hv2⟩ := hv
    intro hmem
    rcases List.mem_append.mp hmem with h | h
    · cases ev with
      | listDirFailed d => exact absurd h (List.not_mem_nil p)
      | session C L =>
        obtain ⟨q, hq, hq1⟩ := List.mem_map.mp h
        exact (hv1.2 q hq).2.1 (by rw [hq1]; exact hp)
    · exact ih (runEv st ev).1 hv2 (runEv_files_mono st ev hp) h

theorem ValidTrace_append (evs₁ evs₂ : List CrashEv) (st : CrashState)
    (hv : ValidTrace st (evs₁ ++ evs₂)) :
    ValidTrace (runTrace st evs₁).1 evs₂ := by
  induction evs₁ generalizing st with
  | nil => exact hv
  | cons ev rest ih =>
    obtain ⟨hv1, hv2⟩ := hv
    exact ih (runEv st ev).1 hv2

/-- C8: a path that is in the known files set after a prefix of a valid run
(in particular one successfully pulled and written during that prefix) is
never pulled in the remainder of the run: `pull` is only invoked on paths of
`candidates − files − dirs`, and the files set only grows. -/
theorem claim_C8 (st : CrashState) (evs₁ evs₂ : List CrashEv) (p : RPath)
    (hv : ValidTrace st (evs₁ ++ evs₂))
    (hp : p ∈ (runTrace st evs₁).1.files) :
    p ∉ (runTrace (runTrace st evs₁).1 evs₂).2.2 :=
  runTrace_no_pull evs₂ (runTrace st evs₁).1 p (ValidTrace_append evs₁ evs₂ st hv) hp

theorem claim_C8_witness :
    (ValidTrace ⟨∅, ∅⟩ ([CrashEv.session {"a"} [("a", PullOutcome.pulledWritten)]] ++
        [CrashEv.session {"a", "b"} [("b", PullOutcome.giveUpError)]]) ∧
      "a" ∈ (runTrace ⟨∅, ∅⟩
        [CrashEv.session {"a"} [("a", PullOutcome.pulledWritten)]]).1.files) ∧
    "a" ∉ (runTrace
        (runTrace ⟨∅, ∅⟩ [CrashEv.session {"a"} [("a", PullOutcome.pulledWritten)]]).1
        [CrashEv.session {"a", "b"} [("b", PullOutcome.giveUpError)]]).2.2 :=
  ⟨⟨⟨⟨by decide, by decide⟩, ⟨⟨by decide, by decide⟩, trivial⟩⟩, by decide⟩,
    claim_C8 ⟨∅, ∅⟩ [CrashEv.session {"a"} [("a", PullOutcome.pulledWritten)]]
      [CrashEv.session {"a", "b"} [("b", PullOutcome.giveUpError)]] "a"
      ⟨⟨by decide, by decide⟩, ⟨⟨by decide, by decide⟩, trivial⟩⟩ (by decide)⟩

/-! ## Heartbeat supervisor (claim C9)

From `imonitor-lib/src/services/heartbeat/client.rs`,
`Device::maintain_heartbeat`: one iteration of the outer `loop` as a
function of the raced outcome.  `connected_sender.send(..)` fails exactly
when there are no receivers, and
`.map_err(HeartbeatError::SendConnectedState)?` propagates the failure out
of the function — except in the soft-timeout branch, where the `?` only
exits the inner async block; its `Err` result is caught by
`if let Err(e) = res`, logged, and followed by a sleep and another loop
iteration. -/

/-- Result of one `watch::Sender::send` call on the readiness signal. -/
inductive SendResult where
  | ok
  | noReceivers
deriving DecidableEq

/-- The raced outcome of one outer-loop iteration of `maintain_heartbeat`. -/
inductive HBEvent where
  /-- `HeartbeatClient::connect` returned `Err`: `send(false)`, then sleep
  and retry. -/
  | connectFailed (send_false : SendResult)
  /-- `connect` returned `Ok`: `send(true)`; then the inner
  `while !reconnect` loop receives the given successful marco intervals
  (each answered by a polo whose error is only logged) until `get_marco`
  fails, upon which `reconnect = true` and `send(false)`. -/
  | connectOk (send_true : SendResult) (marcos : List Nat) (send_false : SendResult)
  /-- The 7-second soft timeout fired first: `send(true)` optimistically. -/
  | softTimeout (send_true : SendResult)
deriving DecidableEq

/-- What one outer-loop iteration does. -/
inductive HBStepResult where
  /-- `maintain_heartbeat` returns
  `Err(HeartbeatError::SendConnectedState(..))`. -/
  | fatal
  /-- The loop continues, with this current read-interval. -/
  | next (interval : Nat)
deriving DecidableEq

/-- One iteration of the outer `loop` of `Device::maintain_heartbeat`: each
successful marco sets `interval = new_interval + 5`; any failed `send`
outside the soft-timeout branch aborts the function. -/
def maintain_heartbeat_step (interval : Nat) : HBEvent → HBStepResult
  | .connectFailed s => if s = .noReceivers then .fatal else .next interval
  | .connectOk st ms sf =>
    if st = .noReceivers then .fatal
    else if sf = .noReceivers then .fatal
    else .next (ms.foldl (fun _ n => n + 5) interval)
  | .softTimeout _ => .next interval

/-- Whether the iteration's raced outcome contains a failed readiness
publish. -/
def eventSendFailed : HBEvent → Bool
  | .connectFailed s => s == SendResult.noReceivers
  | .connectOk st _ sf => st == SendResult.noReceivers || sf == SendResult.noReceivers
  | .softTimeout st => st == SendResult.noReceivers

/-- C9 fails as stated: in the soft-timeout branch a failed readiness
publish is logged and the loop retried after a sleep; the supervisor does
not exit. -/
theorem claim_C9_counterexample :
    eventSendFailed (HBEvent.softTimeout SendResult.noReceivers) = true ∧
    maintain_heartbeat_step 30 (HBEvent.softTimeout SendResult.noReceivers) =
      HBStepResult.next 30 :=
  ⟨rfl, rfl⟩

/-- C9 (amended): a failed readiness publish is fatal — the supervisor
returns an error — in every branch except the soft-timeout branch: on
connect success, on connect failure, and after a marco error.  In the
soft-timeout branch the failure is logged and the loop retries. -/
theorem claim_C9 (interval : Nat) (ev : HBEvent)
    (hfail : eventSendFailed ev = true)
    (hnts : ∀ s, ev ≠ HBEvent.softTimeout s) :
    maintain_heartbeat_step interval ev = HBStepResult.fatal := by
  cases ev with
  | connectFailed s =>
    cases s with
    | ok => simp [eventSendFailed] at hfail
    | noReceivers => simp [maintain_heartbeat_step]
  | connectOk st ms sf =>
    cases st with
    | noReceivers => simp [maintain_heartbeat_step]
    | ok =>
      cases sf with
      | noReceivers => simp [maintain_heartbeat_step]
      | ok => simp [eventSendFailed] at hfail
  | softTimeout s => exact absurd rfl (hnts s)

theorem claim_C9_witness :
    (eventSendFailed (HBEvent.connectFailed SendResult.noReceivers) = true ∧
      ∀ s, HBEvent.connectFailed SendResult.noReceivers ≠ HBEvent.softTimeout s) ∧
    maintain_heartbeat_step 30 (HBEvent.connectFailed SendResult.noReceivers) =
      HBStepResult.fatal :=
  ⟨⟨by decide, fun _ h => HBEvent.noConfusion h⟩,
    claim_C9 30 (HBEvent.connectFailed SendResult.noReceivers) (by decide)
      (fun _ h => HBEvent.noConfusion h)⟩

end IMonitor
